/-
Verification of the compatibility-shim module `mne/fixes.py`.

The module is a flat collection of pure fallback routines for numeric
primitives.  We give a shallow embedding over exact rational arithmetic:
one-dimensional numeric arrays become `List ℚ` (an n-dimensional array is
filtered independently along the designated axis, lane by lane, so the
lane along the filtered axis carries all of the algorithmic content),
integer index arrays become `List ℤ` / `List ℕ`, and a routine that can
raise becomes a function into `Except FiltErr _`.  External collaborators
from the host numeric libraries (the step-response steady state
`lfilter_zi`, the inverse real FFT, window generation) are modelled by
their documented contracts, as the specification treats them as assumed
correct; everything taken from the module itself follows its source text.
-/
import Mathlib

/-- Error taxonomy of the module, as the specification names it:
`InvalidArgument` for malformed enumerated choices and array shapes,
`InsufficientDataLength` for a signal shorter than the requested padding. -/
inductive FiltErr where
  | invalidArgument (msg : String) : FiltErr
  | insufficientDataLength (msg : String) : FiltErr
deriving DecidableEq

/-- Odd (point-symmetric) extension of a signal by `n` samples at each end:
`odd_ext(x, n)` from `scipy.signal._arraytools`, the helper imported by
`_filtfilt`.  Left part is `2*x[0] - x[n:0:-1]`, right part is
`2*x[-1] - x[-2:-(n+2):-1]`.  (The library version additionally rejects
`n > len(x) - 1`; `_filtfilt` only calls it below that bound.) -/
def odd_ext (x : List ℚ) (n : ℕ) : List ℚ :=
  (((x.drop 1).take n).reverse.map (fun v => 2 * x.headD 0 - v)) ++ x ++
    (((x.reverse.drop 1).take n).map (fun v => 2 * x.reverse.headD 0 - v))

/-- Even (mirror) extension of a signal by `n` samples at each end:
`even_ext(x, n)` from `scipy.signal._arraytools`. -/
def even_ext (x : List ℚ) (n : ℕ) : List ℚ :=
  ((x.drop 1).take n).reverse ++ x ++ ((x.reverse.drop 1).take n)

/-- Constant extension of a signal by `n` copies of the boundary samples:
`const_ext(x, n)` from `scipy.signal._arraytools`. -/
def const_ext (x : List ℚ) (n : ℕ) : List ℚ :=
  List.replicate n (x.headD 0) ++ x ++ List.replicate n (x.reverse.headD 0)

/-- Zero-pad a coefficient list on the right to length `n`; `scipy.signal.lfilter`
treats missing trailing coefficients as zero. -/
def padTo (n : ℕ) (l : List ℚ) : List ℚ := l ++ List.replicate (n - l.length) 0

/-- Coefficient normalisation performed by `scipy.signal.lfilter`: both
vectors are padded to the common length `max(len(a), len(b))` and divided
by `a[0]`. -/
def normCoefs (b a : List ℚ) : List ℚ × List ℚ :=
  let n := max a.length b.length
  let a0 := a.headD 0
  ((padTo n b).map (· / a0), (padTo n a).map (· / a0))

/-- One step of the direct-form-II-transposed difference equation used by
`scipy.signal.lfilter` (coefficients already normalised and padded):
`y = b[0]*x + z[0]` and `z[i] := b[i+1]*x + z[i+1] - a[i+1]*y`,
with the state vector one entry shorter than the coefficient vectors. -/
def lfilterStep (bp ap : List ℚ) (z : List ℚ) (xn : ℚ) : ℚ × List ℚ :=
  let y := bp.headD 0 * xn + z.headD 0
  (y, (List.range z.length).map
    (fun i => bp.getD (i + 1) 0 * xn + z.getD (i + 1) 0 - ap.getD (i + 1) 0 * y))

/-- Run the difference equation over a signal, returning the outputs and the
final state. -/
def lfilterAux (bp ap : List ℚ) : List ℚ → List ℚ → List ℚ × List ℚ
  | z, [] => ([], z)
  | z, xn :: xs =>
    let s := lfilterStep bp ap z xn
    let r := lfilterAux bp ap s.2 xs
    (s.1 :: r.1, r.2)

/-- Model of the external collaborator `scipy.signal.lfilter` with an explicit
initial state `zi`: apply the linear recursive filter `b, a` along the signal. -/
def lfilter (b a : List ℚ) (x zi : List ℚ) : List ℚ × List ℚ :=
  let c := normCoefs b a
  lfilterAux c.1 c.2 zi x

/-- Suffix sums building the steady state: given the normalised coefficient
pairs `(b[j], a[j])` for `j ≥ 1` and the DC gain `g`, entry `m` satisfies
`z[m] = (b[m+1] - a[m+1]*g) + z[m+1]`, the fixed point of the state update
under a unit step input. -/
def ziOf (g : ℚ) : List (ℚ × ℚ) → List ℚ
  | [] => []
  | p :: rest =>
    let z := ziOf g rest
    (p.1 - p.2 * g + z.headD 0) :: z

/-- Model of the external collaborator `scipy.signal.lfilter_zi`: the internal
state of the filter after an infinite run of unit input (the steady state of
the step response).  The library obtains it by solving the linear system
`zi = A zi + B` over the companion matrix; `ziOf` is the closed-form solution
of that system, with `g = sum(b)/sum(a)` the DC gain after normalisation. -/
def lfilter_zi (b a : List ℚ) : List ℚ :=
  let c := normCoefs b a
  ziOf (c.1.sum / c.2.sum) ((c.1.zip c.2).tail)

/-- The padding types `_filtfilt` accepts (`None` is the Python `None`). -/
def validPadtypes : List (Option String) :=
  [some "even", some "odd", some "constant", none]

/-- Effective extension length of `_filtfilt`: forced to `0` when `padtype`
is `None`; otherwise the supplied `padlen`, defaulting to
`3 * max(len(a), len(b))`. -/
def effEdge (b a : List ℚ) (padtype : Option String) (padlen : Option ℕ) : ℕ :=
  if padtype.isNone then 0
  else
    match padlen with
    | none => 3 * max a.length b.length
    | some p => p

/-- The forward-backward zero-phase filter `_filtfilt` of `mne/fixes.py`,
along the filtered axis: validate `padtype`, check the signal is longer than
the effective pad length, extend the signal, filter forward from the scaled
steady state, filter the reversed intermediate, reverse back and trim the
extension. -/
def _filtfilt (b a x : List ℚ) (padtype : Option String) (padlen : Option ℕ) :
    Except FiltErr (List ℚ) :=
  if padtype ∉ validPadtypes then
    .error (.invalidArgument
      "Unknown value given to padtype.  padtype must be even, odd, constant, or None.")
  else
    let edge := effEdge b a padtype padlen
    if x.length ≤ edge then
      .error (.insufficientDataLength
        "The length of the input vector x must be at least padlen.")
    else
      let ext :=
        if padtype.isSome ∧ 0 < edge then
          if padtype = some "even" then even_ext x edge
          else if padtype = some "odd" then odd_ext x edge
          else const_ext x edge
        else x
      let zi := lfilter_zi b a
      let x0 := ext.headD 0
      let fwd := lfilter b a ext (zi.map (· * x0))
      let y0 := fwd.1.getLast?.getD 0
      let bwd := lfilter b a fwd.1.reverse (zi.map (· * y0))
      let y := bwd.1.reverse
      if 0 < edge then .ok ((y.drop edge).take (y.length - 2 * edge))
      else .ok y

/-- Machine epsilon of IEEE double precision, the value of
`np.finfo(float).eps` used by `_firwin2` to split repeated breakpoints. -/
def float_eps : ℚ := 1 / 2 ^ 52

/-- External numeric primitives used by `_firwin2`, modelled as oracles
(the specification treats the host FFT and window generators as assumed
correct external collaborators): `trig t = (cos(π t), sin(π t))` builds the
linear-phase shift `exp(i π t)`, `irfft` is the inverse real FFT on
(re, im) pairs, and `get_window` is `scipy.signal.get_window`. -/
structure NumOracle where
  trig : ℚ → ℚ × ℚ
  irfft : List (ℚ × ℚ) → List ℚ
  get_window : String → ℕ → List ℚ

/-- Documented length contract of the inverse real FFT: a spectrum of `n`
bins yields `2 * (n - 1)` samples. -/
def irfftLengthLaw (o : NumOracle) : Prop :=
  ∀ v, (o.irfft v).length = 2 * (v.length - 1)

/-- Documented length contract of `get_window`: `numtaps` taps requested,
`numtaps` returned. -/
def windowLengthLaw (o : NumOracle) : Prop :=
  ∀ w n, (o.get_window w n).length = n

/-- Trivial instantiation of the external primitives, used to evaluate the
embedding at concrete inputs. -/
def stubOracle : NumOracle where
  trig := fun _ => (1, 0)
  irfft := fun v => List.replicate (2 * (v.length - 1)) 0
  get_window := fun _ n => List.replicate n 1

/-- `np.diff`: consecutive differences. -/
def np_diff (l : List ℚ) : List ℚ := List.zipWith (· - ·) l.tail l

/-- One iteration of the repeated-breakpoint loop of `_firwin2`
(`if k < len(freq) - 1 and freq[k] == freq[k + 1]: freq[k] -= eps;
freq[k+1] += eps`), operating on the current state of the array. -/
def tweakStep (eps : ℚ) (f : List ℚ) (k : ℕ) : List ℚ :=
  if k < f.length - 1 ∧ f.getD k 0 = f.getD (k + 1) 0 then
    (f.set k (f.getD k 0 - eps)).set (k + 1) (f.getD (k + 1) 0 + eps)
  else f

/-- The in-place loop of `_firwin2` that nudges repeated values in `freq`
apart so that interpolation works: `for k in range(len(freq))`, each step
observing the updates made by earlier steps. -/
def tweakFreq (eps : ℚ) (f : List ℚ) : List ℚ :=
  (List.range f.length).foldl (tweakStep eps) f

/-- `np.linspace(0.0, nyq, n)`: `n` evenly spaced samples; a single sample
degenerates to the start point. -/
def np_linspace (nyq : ℚ) (n : ℕ) : List ℚ :=
  (List.range n).map (fun i : ℕ => nyq * (i : ℚ) / ((n : ℚ) - 1))

/-- Segment lookup for `np.interp` over the breakpoint/value pairs:
clamp at the ends, linear interpolation inside. -/
def interpPoint (t : ℚ) : List (ℚ × ℚ) → ℚ
  | [] => 0
  | [(_, y1)] => y1
  | (x1, y1) :: (x2, y2) :: rest =>
    if t ≤ x1 then y1
    else if t ≤ x2 then y1 + (y2 - y1) * (t - x1) / (x2 - x1)
    else interpPoint t ((x2, y2) :: rest)

/-- Model of the external collaborator `np.interp`: pointwise piecewise-linear
interpolation of the desired response on the mesh `x`. -/
def np_interp (x xp fp : List ℚ) : List ℚ :=
  x.map (fun t => interpPoint t (xp.zip fp))

/-- The FIR design fallback `_firwin2` of `mne/fixes.py`.  Validates the
breakpoint/gain arrays, nudges repeated breakpoints apart (mutating `freq`
in place in the Python source - the second component of the result is the
final state of the caller-visible `freq` array), interpolates the desired
response on a uniform mesh, applies the linear-phase shift, inverse-FFTs,
and windows the first `numtaps` coefficients. -/
def _firwin2 (o : NumOracle) (numtaps : ℕ) (freq gain : List ℚ)
    (nfreqs : Option ℕ) (window : Option String) (nyq : ℚ) :
    Except FiltErr (List ℚ) × List ℚ :=
  if freq.length ≠ gain.length then
    (.error (.invalidArgument "freq and gain must be of same length."), freq)
  else if (nfreqs.map (fun m => decide (m ≤ numtaps))).getD false then
    (.error (.invalidArgument "ntaps must be less than nfreqs."), freq)
  else if freq.headD 0 ≠ 0 ∨ freq.getLast?.getD 0 ≠ nyq then
    (.error (.invalidArgument "freq must start with 0 and end with nyq."), freq)
  else if (np_diff freq).any (fun d => decide (d < 0)) then
    (.error (.invalidArgument "The values in freq must be nondecreasing."), freq)
  else if (List.zipWith (· + ·) (np_diff freq) (np_diff freq).tail).any
      (fun d2 => decide (d2 = 0)) then
    (.error (.invalidArgument "A value in freq must not occur more than twice."),
      freq)
  else if numtaps % 2 = 0 ∧ gain.getLast?.getD 0 ≠ 0 then
    (.error (.invalidArgument
      "A filter with an even number of coefficients must have zero gain at the Nyquist rate."),
      freq)
  else
    let nf := nfreqs.getD (1 + 2 ^ Nat.clog 2 numtaps)
    let freq2 := tweakFreq float_eps freq
    let x := np_linspace nyq nf
    let fx := np_interp x freq2 gain
    let fx2 := (x.zip fx).map (fun p =>
      (p.2 * (o.trig (-(((numtaps : ℚ) - 1) / 2) * p.1 / nyq)).1,
       p.2 * (o.trig (-(((numtaps : ℚ) - 1) / 2) * p.1 / nyq)).2))
    let out_full := o.irfft fx2
    let out := match window with
      | some w =>
        List.zipWith (· * ·) (out_full.take numtaps) (o.get_window w numtaps)
      | none => out_full.take numtaps
    (.ok out, freq2)

/-- `np.sign`: `1`, `-1` or `0` according to the sign of the argument. -/
def np_sign (q : ℚ) : ℚ := if 0 < q then 1 else if q < 0 then -1 else 0

/-- The sign-copy fallback `_copysign` of `mne/fixes.py`:
`np.abs(x1) * np.sign(x2)`. -/
def _copysign (x1 x2 : ℚ) : ℚ := |x1| * np_sign x2

/-- Truncation toward zero, the conversion applied when a floating-point
array is assigned into an integer array (`out[:len(result)] = result` with
`out` of dtype `np.int`). -/
def truncQ (q : ℚ) : ℤ := q.num.sign * ((q.num.natAbs / q.den : ℕ) : ℤ)

/-- Model of the external collaborator `np.bincount`: entry `i` counts the
occurrences of `i` in `X` (weighted by `weights` when given); the length is
one more than the largest index, and zero for empty input. -/
def np_bincount (X : List ℕ) (weights : Option (List ℚ)) : List ℚ :=
  let n := if X = [] then 0 else X.foldr max 0 + 1
  (List.range n).map (fun i =>
    match weights with
    | none => ((X.count i : ℕ) : ℚ)
    | some w => (((X.zip w).filter (fun p => p.1 = i)).map (fun p => p.2)).sum)

/-- The bincount fallback `_bincount` of `mne/fixes.py`: compute the native
bincount; if it already reaches `minlength` return it unchanged, otherwise
copy it into the prefix of an integer-typed zero array of length
`minlength` (truncating fractional weighted counts). -/
def _bincount (X : List ℕ) (weights : Option (List ℚ)) (minlength : ℕ) :
    List ℚ :=
  let result := np_bincount X weights
  if minlength ≤ result.length then result
  else (result.map (fun r => ((truncQ r : ℤ) : ℚ)))
    ++ List.replicate (minlength - result.length) 0

/-- The order realised by a stable (`kind=mergesort`) `numpy` argsort:
position `i` precedes position `j` when the value at `i` is smaller, or the
values are equal and `i` comes first (stability).  This is a linear order on
positions, so any sort of the positions by it produces exactly the stable
argsort permutation. -/
def argRel {α : Type} [LinearOrder α] [Inhabited α] (v : List α) (i j : ℕ) :
    Prop :=
  v.getD i default < v.getD j default
    ∨ (v.getD i default = v.getD j default ∧ i ≤ j)

instance argRel_decidable {α : Type} [LinearOrder α] [Inhabited α]
    (v : List α) : DecidableRel (argRel v) := fun i j => by
  unfold argRel
  infer_instance

/-- Model of `ar.argsort(kind='mergesort')`: the positions `0, ..., len-1`
sorted by `argRel`. -/
def argsort {α : Type} [LinearOrder α] [Inhabited α] (v : List α) : List ℕ :=
  List.insertionSort (argRel v) (List.range v.length)

/-- `aux[flag]`: keep the entries of a list selected by a boolean mask. -/
def boolMask {α : Type} : List α → List Bool → List α
  | x :: xs, true :: bs => x :: boolMask xs bs
  | _ :: xs, false :: bs => boolMask xs bs
  | _, _ => []

/-- The tail of the new-value flags of `_unique`:
`aux[1:] != aux[:-1]`, each entry comparing an element with its
predecessor, the predecessor of the first entry being `x`. -/
def flagFrom (x : ℤ) (l : List ℤ) : List Bool :=
  List.zipWith (fun p q => decide (p ≠ q)) l (x :: l)

/-- `np.concatenate(([True], aux[1:] != aux[:-1]))` from `_unique`: marks the
first element of every run of equal values. -/
def flagOf : List ℤ → List Bool
  | [] => []
  | x :: xs => true :: flagFrom x xs

/-- The elements of `l` that differ from their predecessor (predecessor of
the first element taken to be `x`): `boolMask l (flagFrom x l)` in closed
recursive form. -/
def maskFrom (x : ℤ) : List ℤ → List ℤ
  | [] => []
  | y :: ys => if y ≠ x then y :: maskFrom y ys else maskFrom y ys

/-- Number of raised flags. -/
def countT (m : List Bool) : ℕ := m.count true

/-- `np.cumsum(flag)`: running totals of the flag list. -/
def cumsumBool (m : List Bool) : List ℕ :=
  (m.scanl (fun acc b => acc + if b then 1 else 0) 0).tail

/-- `iflag = np.cumsum(flag) - 1` from `_unique`: the rank (index into the
deduplicated array) of every position.  All partial sums are at least one
because the first flag is raised. -/
def rankList (m : List Bool) : List ℕ := (cumsumBool m).map (· - 1)

/-- The `return_inverse` path of `_unique` from `mne/fixes.py` (lines
90-102): sort the array, mark the first element of each run, keep the marked
elements, and send every original position through the inverse sorting
permutation to the rank of its value.  Returns `(aux[flag], iflag[iperm])`. -/
def _unique (ar : List ℤ) : List ℤ × List ℕ :=
  let perm := argsort ar
  let aux := perm.map (fun p => ar.getD p 0)
  let flag := flagOf aux
  let iflag := rankList flag
  let iperm := argsort perm
  (boolMask aux flag, iperm.map (fun p => iflag.getD p 0))

/-- Model of the external collaborator `np.unique` without inverse (used for
`ar2` in `_in1d`): the sorted distinct values, exactly the first component
of `_unique`. -/
def np_unique (ar : List ℤ) : List ℤ := (_unique ar).1

/-- The sort-and-flag core shared by both branches of `_in1d`: concatenate,
stable-argsort, mark elements equal to their successor in sorted order
(`np.concatenate((sar[1:] == sar[:-1], [False]))`), and read the flags back
through the inverse permutation restricted to the first array's positions. -/
def in1dRaw (ar1 ar2 : List ℤ) : List Bool :=
  let ar := ar1 ++ ar2
  let order := argsort ar
  let sar := order.map (fun p => ar.getD p 0)
  let flag := (List.zipWith (fun p q => decide (p = q)) sar.tail sar) ++ [false]
  let indx := (argsort order).take ar1.length
  indx.map (fun p => flag.getD p false)

/-- The membership fallback `_in1d` of `mne/fixes.py`: with
`assume_unique` the raw sort-based test; otherwise both arrays are first
deduplicated (`ar1` with inverse indices) and the result is pulled back to
the original positions of `ar1`. -/
def _in1d (ar1 ar2 : List ℤ) (assume_unique : Bool) : List Bool :=
  if assume_unique then in1dRaw ar1 ar2
  else
    let u1 := _unique ar1
    let res := in1dRaw u1.1 (np_unique ar2)
    u1.2.map (fun p => res.getD p false)

theorem lfilterAux_fst_length (bp ap z x : List ℚ) :
    (lfilterAux bp ap z x).1.length = x.length := by
  induction x generalizing z with
  | nil => rfl
  | cons xn xs ih => simp [lfilterAux, ih]

theorem lfilter_fst_length (b a x zi : List ℚ) :
    (lfilter b a x zi).1.length = x.length := by
  simp [lfilter, lfilterAux_fst_length]

theorem length_odd_ext (x : List ℚ) (n : ℕ) (h : n < x.length) :
    (odd_ext x n).length = x.length + 2 * n := by
  simp [odd_ext]
  omega

theorem length_even_ext (x : List ℚ) (n : ℕ) (h : n < x.length) :
    (even_ext x n).length = x.length + 2 * n := by
  simp [even_ext]
  omega

theorem length_const_ext (x : List ℚ) (n : ℕ) :
    (const_ext x n).length = x.length + 2 * n := by
  simp [const_ext]
  omega

theorem effEdge_isSome (b a : List ℚ) (pt : Option String) (pl : Option ℕ)
    (h : 0 < effEdge b a pt pl) : pt.isSome := by
  cases pt with
  | none => simp [effEdge] at h
  | some s => rfl

/-- Shared success lemma: whenever the padding type is valid and the signal is
longer than the effective pad length, `_filtfilt` returns a signal of the same
length. -/
theorem filtfilt_ok_exists (b a x : List ℚ) (pt : Option String) (pl : Option ℕ)
    (hpt : pt ∈ validPadtypes) (hlen : effEdge b a pt pl < x.length) :
    ∃ y, _filtfilt b a x pt pl = .ok y ∧ y.length = x.length := by
  have hnot : ¬ pt ∉ validPadtypes := by simpa using hpt
  simp only [_filtfilt]
  rw [if_neg hnot, if_neg (by omega : ¬ x.length ≤ effEdge b a pt pl)]
  rcases Nat.eq_zero_or_pos (effEdge b a pt pl) with h0 | h0
  · rw [h0, if_neg (by simp : ¬ (pt.isSome = true ∧ 0 < 0)),
      if_neg (by simp : ¬ (0 : ℕ) < 0)]
    exact ⟨_, rfl, by
      simp [List.length_reverse, lfilter_fst_length]⟩
  · have hsome : pt.isSome := effEdge_isSome b a pt pl h0
    rw [if_pos (⟨hsome, h0⟩ : pt.isSome = true ∧ 0 < effEdge b a pt pl), if_pos h0]
    have hextlen :
        (if pt = some "even" then even_ext x (effEdge b a pt pl)
         else if pt = some "odd" then odd_ext x (effEdge b a pt pl)
         else const_ext x (effEdge b a pt pl)).length
          = x.length + 2 * effEdge b a pt pl := by
      split_ifs with h1 h2
      · exact length_even_ext x _ hlen
      · exact length_odd_ext x _ hlen
      · exact length_const_ext x _
    exact ⟨_, rfl, by
      simp [List.length_take, List.length_drop, List.length_reverse,
        lfilter_fst_length, hextlen]
      omega⟩

/-- C1: for every coefficient vectors `b` and `a`, every signal, every valid
padding type and every effective pad length the signal permits, the
zero-phase filter returns an array of exactly the shape of its input. -/
theorem filtfilt_preserves_shape (b a x : List ℚ) (pt : Option String)
    (pl : Option ℕ) (hpt : pt ∈ validPadtypes)
    (hlen : effEdge b a pt pl < x.length) :
    ∃ y, _filtfilt b a x pt pl = .ok y ∧ y.length = x.length :=
  filtfilt_ok_exists b a x pt pl hpt hlen

theorem filtfilt_preserves_shape_witness :
    effEdge [1, 1] [2] (some "even") (some 2) < ([0, 1, 2, 3, 4, 5, 6, 7] : List ℚ).length ∧
    ∃ y, _filtfilt [1, 1] [2] [0, 1, 2, 3, 4, 5, 6, 7] (some "even") (some 2) = .ok y ∧
      y.length = ([0, 1, 2, 3, 4, 5, 6, 7] : List ℚ).length :=
  ⟨by decide,
    filtfilt_preserves_shape [1, 1] [2] [0, 1, 2, 3, 4, 5, 6, 7] (some "even") (some 2)
      (by decide) (by decide)⟩

/-- C2 (amended): with a valid padding type, `_filtfilt` raises
`InsufficientDataLength` exactly when the effective pad length is at least
the signal extent (`p ≥ len(x)`, not `p ≥ len(x) - 1`); otherwise filtering
proceeds and returns a result. -/
theorem filtfilt_insufficient_iff (b a x : List ℚ) (pt : Option String)
    (pl : Option ℕ) (hpt : pt ∈ validPadtypes) :
    ((∃ msg, _filtfilt b a x pt pl = .error (.insufficientDataLength msg)) ↔
      x.length ≤ effEdge b a pt pl)
    ∧ (effEdge b a pt pl < x.length → ∃ y, _filtfilt b a x pt pl = .ok y) := by
  have hnot : ¬ pt ∉ validPadtypes := by simpa using hpt
  refine ⟨⟨?_, ?_⟩, ?_⟩
  · rintro ⟨msg, hmsg⟩
    by_contra hlt
    push_neg at hlt
    obtain ⟨y, hy, -⟩ := filtfilt_ok_exists b a x pt pl hpt hlt
    rw [hy] at hmsg
    exact Except.noConfusion hmsg
  · intro hle
    simp only [_filtfilt]
    rw [if_neg hnot, if_pos hle]
    exact ⟨_, rfl⟩
  · intro hlt
    obtain ⟨y, hy, -⟩ := filtfilt_ok_exists b a x pt pl hpt hlt
    exact ⟨y, hy⟩

theorem filtfilt_insufficient_iff_witness :
    (some "constant") ∈ validPadtypes ∧
    ((∃ msg, _filtfilt [1] [1] [5, 6] (some "constant") (some 2)
        = .error (.insufficientDataLength msg)) ↔
      ([5, 6] : List ℚ).length ≤ effEdge [1] [1] (some "constant") (some 2)) :=
  ⟨by decide,
    (filtfilt_insufficient_iff [1] [1] [5, 6] (some "constant") (some 2) (by decide)).1⟩

set_option maxHeartbeats 1000000 in
/-- C2 counterexample: the claim predicts the `InsufficientDataLength` error
whenever `p ≥ len(x) - 1`.  With `padlen = 2` and a signal of length `3` we
have `p = len(x) - 1`, yet the code filters successfully: the guard in the
source is `len(x) <= p`, not `len(x) - 1 <= p`. -/
theorem filtfilt_insufficient_counterexample :
    ([0, 1, 2] : List ℚ).length - 1 ≤ 2 ∧
    _filtfilt [1] [1] [0, 1, 2] (some "odd") (some 2) = .ok [0, 1, 2] := by
  constructor
  · decide
  · simp only [_filtfilt, validPadtypes, effEdge]
    norm_num [odd_ext, lfilter, lfilter_zi, lfilterAux, lfilterStep, normCoefs,
      padTo, ziOf, List.zip]

/-- C3: any padding type outside `{even, odd, constant, None}` makes
`_filtfilt` fail with `InvalidArgument`.  The theorem holds for every `b`,
`a`, `x` and `padlen` — including signals that would fail the length guard —
so the validation is decided before any padding, initial-condition
computation or filtering; the embedding is a pure function, so no state
mutation can precede it. -/
theorem filtfilt_invalid_padtype (b a x : List ℚ) (pt : Option String)
    (pl : Option ℕ) (hpt : pt ∉ validPadtypes) :
    _filtfilt b a x pt pl = .error (.invalidArgument
      "Unknown value given to padtype.  padtype must be even, odd, constant, or None.") := by
  simp only [_filtfilt]
  rw [if_pos hpt]

theorem filtfilt_invalid_padtype_witness :
    (some "bogus") ∉ validPadtypes ∧
    _filtfilt [] [] [] (some "bogus") none = .error (.invalidArgument
      "Unknown value given to padtype.  padtype must be even, odd, constant, or None.") :=
  ⟨by decide, filtfilt_invalid_padtype [] [] [] (some "bogus") none (by decide)⟩

theorem getD_zero_headD (l : List ℚ) : l.getD 0 0 = l.headD 0 := by
  cases l <;> rfl

theorem getD_map_mul (l : List ℚ) (c : ℚ) (i : ℕ) :
    (l.map (· * c)).getD i 0 = l.getD i 0 * c := by
  by_cases h : i < l.length
  · rw [List.getD_eq_getElem _ _ (by simpa using h), List.getD_eq_getElem _ _ h]
    simp
  · rw [List.getD_eq_default _ _ (by simpa using Nat.le_of_not_lt h),
      List.getD_eq_default _ _ (by simpa using Nat.le_of_not_lt h)]
    ring

theorem ziOf_length (g : ℚ) (l : List (ℚ × ℚ)) : (ziOf g l).length = l.length := by
  induction l with
  | nil => rfl
  | cons p rest ih => simp [ziOf, ih]

theorem ziOf_headD (g : ℚ) (l : List (ℚ × ℚ)) :
    (ziOf g l).headD 0 = (l.map (fun p => p.1 - p.2 * g)).sum := by
  induction l with
  | nil => rfl
  | cons p rest ih =>
    simp only [ziOf, List.headD_cons, List.map_cons, List.sum_cons, ih]

theorem ziOf_getD_succ (g : ℚ) (l : List (ℚ × ℚ)) (i : ℕ) (h : i < l.length) :
    (ziOf g l).getD i 0 =
      ((l.getD i (0, 0)).1 - (l.getD i (0, 0)).2 * g) + (ziOf g l).getD (i + 1) 0 := by
  induction l generalizing i with
  | nil => simp at h
  | cons p rest ih =>
    cases i with
    | zero =>
      simp only [ziOf, List.getD_cons_zero, List.getD_cons_succ]
      rw [getD_zero_headD]
    | succ j =>
      simp only [ziOf, List.getD_cons_succ]
      exact ih j (by simpa using h)

theorem sum_map_sub_pairs (g : ℚ) (l : List (ℚ × ℚ)) :
    (l.map (fun p => p.1 - p.2 * g)).sum
      = (l.map Prod.fst).sum - g * (l.map Prod.snd).sum := by
  induction l with
  | nil => simp
  | cons p rest ih => simp [ih]; ring

theorem tail_zip (l₁ l₂ : List ℚ) : (l₁.zip l₂).tail = l₁.tail.zip l₂.tail := by
  cases l₁ <;> cases l₂ <;> simp

theorem getD_zip (l₁ l₂ : List ℚ) (i : ℕ) (h₁ : i < l₁.length) (h₂ : i < l₂.length) :
    (l₁.zip l₂).getD i (0, 0) = (l₁.getD i 0, l₂.getD i 0) := by
  rw [List.getD_eq_getElem _ _ (by simp; omega), List.getD_eq_getElem _ _ h₁,
    List.getD_eq_getElem _ _ h₂]
  exact List.getElem_zip

theorem sum_map_div (l : List ℚ) (d : ℚ) : (l.map (· / d)).sum = l.sum / d := by
  induction l with
  | nil => simp
  | cons x xs ih => simp [ih]; ring

theorem sum_padTo (n : ℕ) (l : List ℚ) : (padTo n l).sum = l.sum := by
  simp [padTo]

theorem length_padTo (n : ℕ) (l : List ℚ) (h : l.length ≤ n) :
    (padTo n l).length = n := by
  simp [padTo]
  omega

theorem headD_eq_sum_sub_tail (l : List ℚ) (h : l ≠ []) :
    l.headD 0 = l.sum - l.tail.sum := by
  cases l with
  | nil => exact absurd rfl h
  | cons x xs => simp

/-- Hypotheses packaging the normalised-coefficient facts used by the
steady-state argument: equal coefficient lengths, leading denominator
coefficient `1`, and the DC-gain identity `g * sum(a) = sum(b)`. -/
theorem ziOf_state_fixed (bp ap : List ℚ) (g c : ℚ)
    (hlen : bp.length = ap.length) (hbpne : bp ≠ []) (hapne : ap ≠ []) :
    (List.range ((ziOf g ((bp.zip ap).tail)).map (· * c)).length).map
      (fun i => bp.getD (i + 1) 0 * c
        + ((ziOf g ((bp.zip ap).tail)).map (· * c)).getD (i + 1) 0
        - ap.getD (i + 1) 0 * (g * c))
      = (ziOf g ((bp.zip ap).tail)).map (· * c) := by
  have htail : (bp.zip ap).tail = bp.tail.zip ap.tail := tail_zip bp ap
  have htlen : bp.tail.length = ap.tail.length := by
    cases bp with
    | nil => exact absurd rfl hbpne
    | cons b0 bt =>
      cases ap with
      | nil => exact absurd rfl hapne
      | cons a0 at' => simpa using hlen
  apply List.ext_getElem
  · simp
  · intro i h₁ h₂
    simp only [List.getElem_map, List.getElem_range]
    have hi : i < (bp.zip ap).tail.length := by
      rw [← ziOf_length g ((bp.zip ap).tail)]
      simpa using h₂
    have hziD : (bp.zip ap).tail.getD i (0, 0)
        = (bp.getD (i + 1) 0, ap.getD (i + 1) 0) := by
      rw [htail] at hi ⊢
      rw [List.length_zip, htlen, min_self] at hi
      rw [getD_zip _ _ _ (htlen ▸ hi) hi]
      cases bp with
      | nil => exact absurd rfl hbpne
      | cons b0 bt =>
        cases ap with
        | nil => exact absurd rfl hapne
        | cons a0 at' => simp
    have hrec := ziOf_getD_succ g ((bp.zip ap).tail) i hi
    rw [hziD] at hrec
    have hb2 : i < (ziOf g ((bp.zip ap).tail)).length := by rwa [ziOf_length]
    have hidx : (ziOf g ((bp.zip ap).tail))[i]
        = (ziOf g ((bp.zip ap).tail)).getD i 0 :=
      (List.getD_eq_getElem _ _ hb2).symm
    rw [getD_map_mul, hidx, hrec]
    ring

/-- The steady state is a fixed point of the filter step: with normalised
coefficients (`a[0] = 1`) and DC gain `g` (`g * sum(a) = sum(b)`), feeding the
constant `c` into the filter started at `zi * c` outputs `g * c` and leaves
the state unchanged. -/
theorem lfilterStep_fixed (bp ap : List ℚ) (g c : ℚ)
    (hlen : bp.length = ap.length) (hap0 : ap.headD 0 = 1)
    (hg : g * ap.sum = bp.sum) :
    lfilterStep bp ap ((ziOf g ((bp.zip ap).tail)).map (· * c)) c
      = (g * c, (ziOf g ((bp.zip ap).tail)).map (· * c)) := by
  have hapne : ap ≠ [] := by
    intro h
    rw [h] at hap0
    simp at hap0
  have hbpne : bp ≠ [] := by
    intro h
    rw [h] at hlen
    exact hapne (List.eq_nil_of_length_eq_zero hlen.symm)
  have htail : (bp.zip ap).tail = bp.tail.zip ap.tail := tail_zip bp ap
  have htlen : bp.tail.length = ap.tail.length := by
    cases bp with
    | nil => exact absurd rfl hbpne
    | cons b0 bt =>
      cases ap with
      | nil => exact absurd rfl hapne
      | cons a0 at' => simpa using hlen
  have hfst : (bp.tail.zip ap.tail).map Prod.fst = bp.tail :=
    List.map_fst_zip _ _ (le_of_eq htlen)
  have hsnd : (bp.tail.zip ap.tail).map Prod.snd = ap.tail :=
    List.map_snd_zip _ _ (ge_of_eq htlen)
  have hy : bp.headD 0 * c + ((ziOf g ((bp.zip ap).tail)).map (· * c)).headD 0
      = g * c := by
    have hhead : ((ziOf g ((bp.zip ap).tail)).map (· * c)).headD 0
        = (ziOf g ((bp.zip ap).tail)).headD 0 * c := by
      rw [← getD_zero_headD, ← getD_zero_headD, getD_map_mul]
    rw [hhead, ziOf_headD, htail, sum_map_sub_pairs, hfst, hsnd]
    have hbs : bp.tail.sum = bp.sum - bp.headD 0 := by
      rw [headD_eq_sum_sub_tail bp hbpne]; ring
    have has : ap.tail.sum = ap.sum - 1 := by
      rw [← hap0, headD_eq_sum_sub_tail ap hapne]; ring
    rw [hbs, has, ← hg]
    ring
  simp only [lfilterStep]
  rw [hy]
  exact congrArg (Prod.mk (g * c)) (ziOf_state_fixed bp ap g c hlen hbpne hapne)

theorem lfilterAux_replicate (bp ap z : List ℚ) (yc c : ℚ) (M : ℕ)
    (hstep : lfilterStep bp ap z c = (yc, z)) :
    lfilterAux bp ap z (List.replicate M c) = (List.replicate M yc, z) := by
  induction M with
  | zero => rfl
  | succ m ih => simp [List.replicate_succ, lfilterAux, hstep, ih]

theorem headD_replicate (c : ℚ) (M : ℕ) (h : 0 < M) :
    (List.replicate M c).headD 0 = c := by
  cases M with
  | zero => omega
  | succ m => simp [List.replicate_succ]

theorem getLastD_replicate (c : ℚ) (M : ℕ) (h : 0 < M) :
    (List.replicate M c).getLast?.getD 0 = c := by
  cases M with
  | zero => omega
  | succ m => rw [List.replicate_succ', List.getLast?_concat]; rfl

theorem odd_ext_replicate (c : ℚ) (L n : ℕ) (h : n < L) :
    odd_ext (List.replicate L c) n = List.replicate (L + 2 * n) c := by
  have hL : 0 < L := by omega
  simp only [odd_ext, List.drop_replicate, List.take_replicate,
    List.reverse_replicate, List.map_replicate, headD_replicate c L hL]
  have h2 : 2 * c - c = c := by ring
  rw [h2, ← List.replicate_add, ← List.replicate_add]
  congr 1
  omega

theorem even_ext_replicate (c : ℚ) (L n : ℕ) (h : n < L) :
    even_ext (List.replicate L c) n = List.replicate (L + 2 * n) c := by
  simp only [even_ext, List.drop_replicate, List.take_replicate,
    List.reverse_replicate]
  rw [← List.replicate_add, ← List.replicate_add]
  congr 1
  omega

theorem const_ext_replicate (c : ℚ) (L n : ℕ) (h : 0 < L) :
    const_ext (List.replicate L c) n = List.replicate (L + 2 * n) c := by
  simp only [const_ext, List.reverse_replicate, headD_replicate c L h]
  rw [← List.replicate_add, ← List.replicate_add]
  congr 1
  omega

/-- Shared helper: on a constant signal the zero-phase filter returns the
constant scaled by the square of the DC gain `sum(b)/sum(a)`. -/
theorem filtfilt_const_core (b a : List ℚ) (pt : Option String) (pl : Option ℕ)
    (c : ℚ) (L : ℕ) (hpt : pt ∈ validPadtypes) (ha0 : a.headD 0 ≠ 0)
    (hsum : a.sum ≠ 0) (hlen : effEdge b a pt pl < L) :
    _filtfilt b a (List.replicate L c) pt pl
      = .ok (List.replicate L ((b.sum / a.sum) ^ 2 * c)) := by
  have hnot : ¬ pt ∉ validPadtypes := by simpa using hpt
  have hane : a ≠ [] := fun h => ha0 (by simp [h])
  have hLpos : 0 < L := by omega
  -- facts about the normalised coefficients
  have hlen' : (normCoefs b a).1.length = (normCoefs b a).2.length := by
    simp only [normCoefs, List.length_map, padTo, List.length_append,
      List.length_replicate]
    omega
  have hap0 : (normCoefs b a).2.headD 0 = 1 := by
    cases a with
    | nil => exact absurd rfl hane
    | cons a0 as =>
      simp only [normCoefs, padTo, List.cons_append, List.map_cons,
        List.headD_cons]
      exact div_self (by simpa using ha0)
  have hbpsum : (normCoefs b a).1.sum = b.sum / a.headD 0 := by
    simp only [normCoefs]
    rw [sum_map_div, sum_padTo]
  have hapsum : (normCoefs b a).2.sum = a.sum / a.headD 0 := by
    simp only [normCoefs]
    rw [sum_map_div, sum_padTo]
  have hapsum_ne : (normCoefs b a).2.sum ≠ 0 := by
    rw [hapsum]
    exact div_ne_zero hsum ha0
  set g : ℚ := (normCoefs b a).1.sum / (normCoefs b a).2.sum with hgdef
  have ha0' : a.head?.getD 0 ≠ 0 := by rwa [← List.headD_eq_head?]
  have hgval : g = b.sum / a.sum := by
    rw [hgdef, hbpsum, hapsum]
    field_simp
  have hg : g * (normCoefs b a).2.sum = (normCoefs b a).1.sum :=
    div_mul_cancel₀ _ hapsum_ne
  have hzi : lfilter_zi b a
      = ziOf g (((normCoefs b a).1.zip (normCoefs b a).2).tail) := rfl
  -- the two constant filter passes
  have hfwd : ∀ (M : ℕ) (v : ℚ),
      lfilter b a (List.replicate M v) ((lfilter_zi b a).map (· * v))
        = (List.replicate M (g * v), (lfilter_zi b a).map (· * v)) := by
    intro M v
    have hstep := lfilterStep_fixed (normCoefs b a).1 (normCoefs b a).2 g v
      hlen' hap0 hg
    show lfilterAux (normCoefs b a).1 (normCoefs b a).2
      ((lfilter_zi b a).map (· * v)) (List.replicate M v) = _
    rw [hzi]
    exact lfilterAux_replicate _ _ _ _ _ M hstep
  -- unfold the filter and discharge the guards
  simp only [_filtfilt]
  rw [if_neg hnot,
    if_neg (by simpa using (by omega : ¬ L ≤ effEdge b a pt pl))]
  rcases Nat.eq_zero_or_pos (effEdge b a pt pl) with h0 | h0
  · -- no extension
    rw [h0, if_neg (by simp : ¬ (pt.isSome = true ∧ 0 < 0)),
      if_neg (by simp : ¬ (0 : ℕ) < 0)]
    rw [headD_replicate c L hLpos, hfwd L c, getLastD_replicate (g * c) L hLpos]
    simp only [List.reverse_replicate]
    rw [hfwd L (g * c)]
    simp only [List.reverse_replicate]
    rw [hgval]
    congr 1
    congr 1
    ring
  · -- extension of positive length
    have hsome : pt.isSome := effEdge_isSome b a pt pl h0
    rw [if_pos (⟨hsome, h0⟩ : pt.isSome = true ∧ 0 < effEdge b a pt pl),
      if_pos h0]
    set e := effEdge b a pt pl with hedef
    have hext :
        (if pt = some "even" then even_ext (List.replicate L c) e
         else if pt = some "odd" then odd_ext (List.replicate L c) e
         else const_ext (List.replicate L c) e)
          = List.replicate (L + 2 * e) c := by
      split_ifs with h1 h2
      · exact even_ext_replicate c L e hlen
      · exact odd_ext_replicate c L e hlen
      · exact const_ext_replicate c L e hLpos
    rw [hext, headD_replicate c (L + 2 * e) (by omega), hfwd (L + 2 * e) c,
      getLastD_replicate (g * c) (L + 2 * e) (by omega)]
    simp only [List.reverse_replicate]
    rw [hfwd (L + 2 * e) (g * c)]
    simp only [List.reverse_replicate, List.length_replicate,
      List.drop_replicate, List.take_replicate]
    rw [hgval]
    congr 1
    congr 1
    · omega
    · ring

/-- C4 (amended): on a constant signal, with a stable filter (nonzero `a[0]`
and nonzero `sum(a)`, so the DC gain is defined), the zero-phase filter
returns the constant scaled by the square of the DC gain
`g = sum(b)/sum(a)`; the output equals the input constant exactly when the
filter has unit DC gain. -/
theorem filtfilt_const_gain (b a : List ℚ) (pt : Option String) (pl : Option ℕ)
    (c : ℚ) (L : ℕ) (hpt : pt ∈ validPadtypes) (ha0 : a.headD 0 ≠ 0)
    (hsum : a.sum ≠ 0) (hlen : effEdge b a pt pl < L) :
    _filtfilt b a (List.replicate L c) pt pl
      = .ok (List.replicate L ((b.sum / a.sum) ^ 2 * c)) :=
  filtfilt_const_core b a pt pl c L hpt ha0 hsum hlen

theorem filtfilt_const_gain_witness :
    _filtfilt [1] [2] (List.replicate 4 4) (some "constant") none
      = .ok (List.replicate 4 ((List.sum [1] / List.sum [2]) ^ 2 * 4)) :=
  filtfilt_const_gain [1] [2] (some "constant") none 4 4 (by decide)
    (by norm_num) (by norm_num) (by decide)

/-- C4 counterexample: the claim as stated promises the same constant back
for every stable filter, but `b = [2]`, `a = [1]` (DC gain 2) turns the
constant signal `1` into the constant `4 = 2²`. -/
theorem filtfilt_const_counterexample :
    _filtfilt [2] [1] [1, 1, 1, 1] (some "odd") none = .ok [4, 4, 4, 4]
      ∧ (4 : ℚ) ≠ 1 := by
  constructor
  · have h := filtfilt_const_core [2] [1] (some "odd") none 1 4 (by decide)
      (by norm_num) (by norm_num) (by decide)
    have hrep : (List.replicate 4 (1 : ℚ)) = [1, 1, 1, 1] := rfl
    rw [hrep] at h
    rw [h]
    norm_num [List.replicate]
  · norm_num

theorem np_linspace_length (nyq : ℚ) (n : ℕ) : (np_linspace nyq n).length = n := by
  simp only [np_linspace, List.length_map, List.length_range]

theorem np_interp_length (x xp fp : List ℚ) : (np_interp x xp fp).length = x.length := by
  simp [np_interp]

/-- C5: whenever `numtaps` is even and the gain at the Nyquist frequency is
nonzero, `_firwin2` fails with an `InvalidArgument` error (whichever
validation fires first, every failure of this routine is an
`InvalidArgument`), returning no coefficients. -/
theorem firwin2_even_nyquist_error (o : NumOracle) (numtaps : ℕ)
    (freq gain : List ℚ) (nfreqs : Option ℕ) (window : Option String) (nyq : ℚ)
    (heven : numtaps % 2 = 0) (hg : gain.getLast?.getD 0 ≠ 0) :
    ∃ msg, (_firwin2 o numtaps freq gain nfreqs window nyq).1
      = .error (.invalidArgument msg) := by
  simp only [_firwin2]
  split_ifs with h1 h2 h3 h4 h5 h6
  · exact ⟨_, rfl⟩
  · exact ⟨_, rfl⟩
  · exact ⟨_, rfl⟩
  · exact ⟨_, rfl⟩
  · exact ⟨_, rfl⟩
  · exact ⟨_, rfl⟩
  · exact absurd ⟨heven, hg⟩ h6

theorem firwin2_even_nyquist_error_witness :
    2 % 2 = 0 ∧ ([1, 1] : List ℚ).getLast?.getD 0 ≠ 0 ∧
    ∃ msg, (_firwin2 stubOracle 2 [0, 1] [1, 1] none none 1).1
      = .error (.invalidArgument msg) :=
  ⟨rfl, by norm_num,
    firwin2_even_nyquist_error stubOracle 2 [0, 1] [1, 1] none none 1 rfl
      (by norm_num)⟩

/-- C6: on validated inputs (matching `freq`/`gain` lengths, `freq` from `0`
to `nyq`, nondecreasing, no value more than twice, `numtaps` below the
interpolation mesh size, odd `numtaps` whenever the Nyquist gain is nonzero)
`_firwin2` succeeds and returns exactly `numtaps` coefficients, given the
documented length contracts of the external FFT and window primitives. -/
theorem firwin2_output_length (o : NumOracle) (numtaps : ℕ)
    (freq gain : List ℚ) (nfreqs : Option ℕ) (window : Option String) (nyq : ℚ)
    (hirfft : irfftLengthLaw o) (hwin : windowLengthLaw o)
    (hlen : freq.length = gain.length)
    (hnf : ∀ m, nfreqs = some m → numtaps < m)
    (h0 : freq.headD 0 = 0) (hlast : freq.getLast?.getD 0 = nyq)
    (hmono : (np_diff freq).any (fun d => decide (d < 0)) = false)
    (htwice : (List.zipWith (· + ·) (np_diff freq) (np_diff freq).tail).any
      (fun d2 => decide (d2 = 0)) = false)
    (hodd : gain.getLast?.getD 0 ≠ 0 → numtaps % 2 = 1) :
    ∃ out, (_firwin2 o numtaps freq gain nfreqs window nyq).1 = .ok out
      ∧ out.length = numtaps := by
  have hnfe : numtaps ≤ 2 * (nfreqs.getD (1 + 2 ^ Nat.clog 2 numtaps) - 1) := by
    cases nfreqs with
    | none =>
      have h := Nat.le_pow_clog (by norm_num : 1 < 2) numtaps
      simp only [Option.getD_none]
      omega
    | some m =>
      have h := hnf m rfl
      simp only [Option.getD_some]
      omega
  simp only [_firwin2]
  rw [if_neg (by omega),
    if_neg (by
      cases nfreqs with
      | none => exact fun h => Bool.noConfusion h
      | some m =>
        have h := hnf m rfl
        intro hcon
        rw [Option.map_some', Option.getD_some, decide_eq_true_eq] at hcon
        omega),
    if_neg (by
      push_neg
      exact ⟨h0, hlast⟩),
    if_neg (by simp [hmono]),
    if_neg (by simp [htwice]),
    if_neg (by
      rintro ⟨he, hgn⟩
      have h := hodd hgn
      omega)]
  refine ⟨_, rfl, ?_⟩
  cases window with
  | none =>
    rw [List.length_take, hirfft]
    simp only [List.length_map, List.length_zip, np_interp_length,
      np_linspace_length, min_self]
    omega
  | some w =>
    rw [List.length_zipWith, List.length_take, hirfft, hwin]
    simp only [List.length_map, List.length_zip, np_interp_length,
      np_linspace_length, min_self]
    omega

theorem firwin2_output_length_witness :
    ∃ out, (_firwin2 stubOracle 3 [0, 1] [1, 0] none (some "hamming") 1).1
      = .ok out ∧ out.length = 3 :=
  firwin2_output_length stubOracle 3 [0, 1] [1, 0] none (some "hamming") 1
    (fun v => by simp [stubOracle])
    (fun w n => by simp [stubOracle])
    (by norm_num)
    (fun m h => by simp at h)
    (by norm_num)
    (by norm_num)
    (by norm_num [np_diff])
    (by norm_num [np_diff])
    (fun _ => rfl)

/-- C8 (code bug): the repeated-value nudge loop of `_firwin2` updates the
caller-visible `freq` array in place, so `_firwin2` does not leave its `freq`
argument unchanged when `freq` contains a value repeated twice.  At
`freq = [0, 1/2, 1/2, 1]` (a valid input that passes every check) the final
state of `freq` is `[0, 1/2 - eps, 1/2 + eps, 1]` with `eps = 2⁻⁵²`. -/
theorem firwin2_mutates_freq :
    (_firwin2 stubOracle 3 [0, 1/2, 1/2, 1] [1, 1, 0, 0] none
        (some "hamming") 1).2
      = [0, 1/2 - float_eps, 1/2 + float_eps, 1]
    ∧ (_firwin2 stubOracle 3 [0, 1/2, 1/2, 1] [1, 1, 0, 0] none
        (some "hamming") 1).2
      ≠ [0, 1/2, 1/2, 1] := by
  have hsnd : (_firwin2 stubOracle 3 [0, 1/2, 1/2, 1] [1, 1, 0, 0] none
      (some "hamming") 1).2 = tweakFreq float_eps [0, 1/2, 1/2, 1] := by
    simp only [_firwin2]
    rw [if_neg (by norm_num),
      if_neg (fun h => Bool.noConfusion h),
      if_neg (by push_neg; norm_num),
      if_neg (by norm_num [np_diff]),
      if_neg (by norm_num [np_diff]),
      if_neg (by norm_num)]
  have htweak : tweakFreq float_eps [0, 1/2, 1/2, 1]
      = [0, 1/2 - float_eps, 1/2 + float_eps, 1] := by
    rw [tweakFreq,
      show List.range ([0, 1/2, 1/2, 1] : List ℚ).length = [0, 1, 2, 3] from rfl]
    simp only [List.foldl_cons, List.foldl_nil]
    rw [show tweakStep float_eps [0, 1/2, 1/2, 1] 0 = [0, 1/2, 1/2, 1] by
        rw [tweakStep, if_neg]; norm_num,
      show tweakStep float_eps [0, 1/2, 1/2, 1] 1
          = [0, 1/2 - float_eps, 1/2 + float_eps, 1] by
        rw [tweakStep, if_pos (by norm_num)]; norm_num,
      show tweakStep float_eps [0, 1/2 - float_eps, 1/2 + float_eps, 1] 2
          = [0, 1/2 - float_eps, 1/2 + float_eps, 1] by
        rw [tweakStep, if_neg]; norm_num [float_eps],
      show tweakStep float_eps [0, 1/2 - float_eps, 1/2 + float_eps, 1] 3
          = [0, 1/2 - float_eps, 1/2 + float_eps, 1] by
        rw [tweakStep, if_neg]; norm_num]
  refine ⟨hsnd.trans htweak, ?_⟩
  rw [hsnd, htweak]
  intro hcon
  rw [List.cons.injEq, List.cons.injEq] at hcon
  have h2 := hcon.2.1
  rw [sub_eq_self] at h2
  exact absurd h2 (by norm_num [float_eps])

theorem getD_replicate_zero (k j : ℕ) : (List.replicate k (0 : ℚ)).getD j 0 = 0 := by
  by_cases h : j < k
  · rw [List.getD_eq_getElem _ _ (by simpa using h)]
    simp
  · rw [List.getD_eq_default _ _ (by simpa using Nat.le_of_not_lt h)]

/-- C9 (amended): for nonzero `x1` and `x2` the sign-copy fallback returns a
value of magnitude `|x1|` carrying the sign of `x2`; when `x1 = 0` or
`x2 = 0` it returns `0` (so for `x2 = 0` the magnitude is `0`, not `|x1|`,
because `np.sign 0 = 0`). -/
theorem copysign_spec (x1 x2 : ℚ) :
    (x1 ≠ 0 → x2 ≠ 0 →
      |_copysign x1 x2| = |x1| ∧ np_sign (_copysign x1 x2) = np_sign x2)
    ∧ ((x1 = 0 ∨ x2 = 0) → _copysign x1 x2 = 0) := by
  constructor
  · intro hx1 hx2
    have habs : 0 < |x1| := abs_pos.mpr hx1
    rcases lt_trichotomy x2 0 with h | h | h
    · have hs : np_sign x2 = -1 := by
        rw [np_sign, if_neg (by linarith), if_pos h]
      have hv : _copysign x1 x2 = -|x1| := by rw [_copysign, hs]; ring
      constructor
      · rw [hv, abs_neg, abs_abs]
      · rw [hv, hs, np_sign, if_neg (by linarith), if_pos (by linarith)]
    · exact absurd h hx2
    · have hs : np_sign x2 = 1 := by rw [np_sign, if_pos h]
      have hv : _copysign x1 x2 = |x1| := by rw [_copysign, hs]; ring
      constructor
      · rw [hv, abs_abs]
      · rw [hv, hs, np_sign, if_pos habs]
  · rintro (h | h)
    · simp [_copysign, h]
    · simp [_copysign, np_sign, h]

theorem copysign_spec_witness :
    |_copysign (-2) 3| = |(-2 : ℚ)| ∧ np_sign (_copysign (-2) 3) = np_sign 3 :=
  (copysign_spec (-2) 3).1 (by norm_num) (by norm_num)

/-- C9 counterexample: at `x2 = 0` the fallback returns `0`, whose magnitude
is not `|x1|`; no value can have magnitude `|1|` and the sign of `0` at
once, and `np.copysign(1.0, 0.0)` itself would return `1.0`. -/
theorem copysign_counterexample : |_copysign 1 0| ≠ |(1 : ℚ)| := by
  norm_num [_copysign, np_sign]

/-- C10: when the native bincount is shorter than `minlength`, the fallback
returns an array of length exactly `minlength` whose leading entries are the
native values truncated to integer and whose remaining entries are zero;
otherwise it returns the native result unchanged. -/
theorem bincount_minlength (X : List ℕ) (w : Option (List ℚ)) (m : ℕ) :
    ((np_bincount X w).length < m →
      (_bincount X w m).length = m
      ∧ (∀ i, i < (np_bincount X w).length →
          (_bincount X w m).getD i 0
            = ((truncQ ((np_bincount X w).getD i 0) : ℤ) : ℚ))
      ∧ (∀ i, (np_bincount X w).length ≤ i → i < m →
          (_bincount X w m).getD i 0 = 0))
    ∧ (m ≤ (np_bincount X w).length → _bincount X w m = np_bincount X w) := by
  constructor
  · intro h
    have hne : ¬ m ≤ (np_bincount X w).length := by omega
    refine ⟨?_, ?_, ?_⟩
    · simp only [_bincount, if_neg hne, List.length_append, List.length_map,
        List.length_replicate]
      omega
    · intro i hi
      simp only [_bincount, if_neg hne]
      rw [List.getD_append _ _ _ _ (by simpa using hi)]
      rw [List.getD_eq_getElem _ _ (by simpa using hi),
        List.getD_eq_getElem _ _ hi]
      simp
    · intro i hge hlt
      simp only [_bincount, if_neg hne]
      rw [List.getD_append_right _ _ _ _ (by simpa using hge)]
      simp only [List.length_map]
      exact getD_replicate_zero _ _
  · intro h
    simp only [_bincount, if_pos h]

theorem bincount_minlength_witness :
    (np_bincount [1, 1, 3] (some [1/2, 1/2, 7/2])).length < 6 ∧
    (_bincount [1, 1, 3] (some [1/2, 1/2, 7/2]) 6).length = 6 := by
  have hlen : (np_bincount [1, 1, 3] (some [1/2, 1/2, 7/2])).length < 6 := by
    simp [np_bincount]
  exact ⟨hlen,
    ((bincount_minlength [1, 1, 3] (some [1/2, 1/2, 7/2]) 6).1 hlen).1⟩

theorem getD_mem {α : Type} (l : List α) (i : ℕ) (d : α) (h : i < l.length) :
    l.getD i d ∈ l := by
  rw [List.getD_eq_getElem _ _ h]
  exact List.getElem_mem _

theorem getD_map_comp {α β : Type} (l : List α) (f : α → β) (i : ℕ) (d : α)
    (e : β) (hi : i < l.length) : (l.map f).getD i e = f (l.getD i d) := by
  rw [List.getD_eq_getElem _ _ (by simpa using hi),
    List.getD_eq_getElem _ _ hi, List.getElem_map]

theorem argRel_total {α : Type} [LinearOrder α] [Inhabited α] (v : List α) :
    IsTotal ℕ (argRel v) := ⟨fun i j => by
  rcases lt_trichotomy (v.getD i default) (v.getD j default) with h | h | h
  · exact Or.inl (Or.inl h)
  · rcases le_total i j with hij | hij
    · exact Or.inl (Or.inr ⟨h, hij⟩)
    · exact Or.inr (Or.inr ⟨h.symm, hij⟩)
  · exact Or.inr (Or.inl h)⟩

theorem argRel_trans {α : Type} [LinearOrder α] [Inhabited α] (v : List α) :
    IsTrans ℕ (argRel v) := ⟨fun i j k hij hjk => by
  rcases hij with h | ⟨he, hle⟩ <;> rcases hjk with h' | ⟨he', hle'⟩
  · exact Or.inl (h.trans h')
  · exact Or.inl (by rw [← he']; exact h)
  · exact Or.inl (by rw [he]; exact h')
  · exact Or.inr ⟨he.trans he', hle.trans hle'⟩⟩

theorem argRel_antisymm {α : Type} [LinearOrder α] [Inhabited α] (v : List α) :
    IsAntisymm ℕ (argRel v) := ⟨fun i j hij hji => by
  rcases hij with h | ⟨he, hle⟩ <;> rcases hji with h' | ⟨he', hle'⟩
  · exact absurd (h.trans h') (lt_irrefl _)
  · exact absurd h (by rw [he']; exact lt_irrefl _)
  · exact absurd h' (by rw [he]; exact lt_irrefl _)
  · omega⟩

theorem argsort_perm {α : Type} [LinearOrder α] [Inhabited α] (v : List α) :
    (argsort v).Perm (List.range v.length) :=
  List.perm_insertionSort _ _

theorem argsort_length {α : Type} [LinearOrder α] [Inhabited α] (v : List α) :
    (argsort v).length = v.length := by
  rw [argsort, List.length_insertionSort, List.length_range]

theorem argsort_sorted {α : Type} [LinearOrder α] [Inhabited α] (v : List α) :
    List.Sorted (argRel v) (argsort v) := by
  haveI := argRel_total v
  haveI := argRel_trans v
  exact List.sorted_insertionSort _ _

theorem argsort_nodup {α : Type} [LinearOrder α] [Inhabited α] (v : List α) :
    (argsort v).Nodup :=
  ((argsort_perm v).nodup_iff).mpr (List.nodup_range _)

theorem argsort_mem {α : Type} [LinearOrder α] [Inhabited α] (v : List α)
    {p : ℕ} (h : p ∈ argsort v) : p < v.length := by
  have hm := (argsort_perm v).mem_iff.mp h
  simpa using hm

theorem argsort_getD_lt {α : Type} [LinearOrder α] [Inhabited α] (v : List α)
    (i : ℕ) (hi : i < v.length) : (argsort v).getD i 0 < v.length :=
  argsort_mem v (getD_mem _ _ _ (by rwa [argsort_length]))

theorem argsort_rel_of_lt {α : Type} [LinearOrder α] [Inhabited α] (v : List α)
    (p q : ℕ) (hpq : p < q) (hq : q < v.length) :
    argRel v ((argsort v).getD p 0) ((argsort v).getD q 0) := by
  have hs := argsort_sorted v
  have hlp : p < (argsort v).length := by rw [argsort_length]; omega
  have hlq : q < (argsort v).length := by rw [argsort_length]; exact hq
  rw [List.getD_eq_getElem _ _ hlp, List.getD_eq_getElem _ _ hlq]
  have h := hs.rel_get_of_lt (a := ⟨p, hlp⟩) (b := ⟨q, hlq⟩) (by simpa using hpq)
  simpa using h

theorem argsort_exists_pos {α : Type} [LinearOrder α] [Inhabited α]
    (v : List α) (j : ℕ) (hj : j < v.length) :
    ∃ q, q < v.length ∧ (argsort v).getD q 0 = j := by
  have hjmem : j ∈ argsort v := ((argsort_perm v).mem_iff).mpr (by simpa using hj)
  obtain ⟨⟨q, hq⟩, hget⟩ := List.mem_iff_get.mp hjmem
  refine ⟨q, by rwa [← argsort_length v], ?_⟩
  rw [List.getD_eq_getElem _ _ hq]
  simpa using hget

theorem argsort_getD_inj {α : Type} [LinearOrder α] [Inhabited α] (v : List α)
    (p q : ℕ) (hp : p < v.length) (hq : q < v.length)
    (h : (argsort v).getD p 0 = (argsort v).getD q 0) : p = q := by
  have hn := argsort_nodup v
  have hp' : p < (argsort v).length := by rwa [argsort_length]
  have hq' : q < (argsort v).length := by rwa [argsort_length]
  rw [List.getD_eq_getElem _ _ hp', List.getD_eq_getElem _ _ hq'] at h
  have := (hn.get_inj_iff (i := ⟨p, hp'⟩) (j := ⟨q, hq'⟩)).mp (by simpa using h)
  simpa using congrArg Fin.val this

theorem map_getD_range_nat (l : List ℕ) :
    (List.range l.length).map (fun p => l.getD p 0) = l := by
  apply List.ext_getElem
  · simp
  · intro n h₁ h₂
    rw [List.getElem_map, List.getElem_range, List.getD_eq_getElem l 0 h₂]

/-- `order.argsort()` inverts a permutation `order` of `0, ..., len-1`:
composing the two index lookups is the identity. -/
theorem argsort_inverse (l : List ℕ) (hperm : l.Perm (List.range l.length))
    (i : ℕ) (hi : i < l.length) :
    l.getD ((argsort l).getD i 0) 0 = i := by
  have hnodup : l.Nodup := (hperm.nodup_iff).mpr (List.nodup_range _)
  have hmapeq : (argsort l).map (fun p => l.getD p 0) = List.range l.length := by
    apply List.eq_of_perm_of_sorted (r := (· ≤ ·))
    · exact ((argsort_perm l).map _).trans (by rw [map_getD_range_nat]; exact hperm)
    · exact List.Pairwise.map _
        (fun a b hab => by
          rcases hab with h | ⟨h, _⟩
          · exact le_of_lt h
          · exact le_of_eq h)
        (argsort_sorted l)
    · exact List.pairwise_le_range _
  have hil : i < ((argsort l).map (fun p => l.getD p 0)).length := by
    rw [List.length_map, argsort_length]
    exact hi
  have h1 : l.getD ((argsort l).getD i 0) 0
      = ((argsort l).map (fun p => l.getD p 0)).getD i 0 :=
    (getD_map_comp (argsort l) (fun p => l.getD p 0) i 0 0
      (by rwa [List.length_map] at hil)).symm
  rw [h1, hmapeq, List.getD_eq_getElem _ _ (by simpa using hi),
    List.getElem_range]

theorem argRel_le {α : Type} [LinearOrder α] [Inhabited α] (v : List α)
    {i j : ℕ} (h : argRel v i j) : v.getD i default ≤ v.getD j default := by
  rcases h with h | ⟨h, _⟩
  · exact le_of_lt h
  · exact le_of_eq h

theorem getD_take {α : Type} (l : List α) (n i : ℕ) (d : α) (hi : i < n)
    (hl : i < l.length) : (l.take n).getD i d = l.getD i d := by
  rw [List.getD_eq_getElem _ _ (by simp; omega), List.getD_eq_getElem _ _ hl]
  exact List.getElem_take _

theorem in1d_flag_zip_length (sar : List ℤ) :
    (List.zipWith (fun a b => decide (a = b)) sar.tail sar).length
      = sar.length - 1 := by
  rw [List.length_zipWith, List.length_tail]
  omega

theorem in1d_flag_getD_mid (sar : List ℤ) (p : ℕ) (hp : p + 1 < sar.length) :
    ((List.zipWith (fun a b => decide (a = b)) sar.tail sar) ++ [false]).getD
        p false
      = decide (sar.getD (p + 1) 0 = sar.getD p 0) := by
  have hz := in1d_flag_zip_length sar
  rw [List.getD_append _ _ _ _ (by omega)]
  rw [List.getD_eq_getElem _ _ (by omega)]
  rw [List.getElem_zipWith]
  rw [List.getElem_tail]
  rw [List.getD_eq_getElem _ _ hp, List.getD_eq_getElem _ _ (by omega)]

theorem in1d_flag_getD_last (sar : List ℤ) (p : ℕ) (hp : p + 1 = sar.length) :
    ((List.zipWith (fun a b => decide (a = b)) sar.tail sar) ++ [false]).getD
        p false = false := by
  have hz := in1d_flag_zip_length sar
  rw [List.getD_append_right _ _ _ _ (by omega)]
  rw [hz, show p - (sar.length - 1) = 0 by omega]
  rfl

/-- Core correctness of the sort-and-flag membership test: when the first
array has distinct elements, entry `i` of the raw result is raised exactly
when `ar1[i]` occurs in `ar2`.  The stable sort puts the `ar1` copy of a
shared value immediately before any equal `ar2` copy, so the
equal-to-successor flag at its sorted position witnesses membership. -/
theorem in1dRaw_flag (a1 a2 : List ℤ) (h1 : a1.Nodup) (i : ℕ)
    (hi : i < a1.length) :
    (in1dRaw a1 a2).getD i false = decide (a1.getD i 0 ∈ a2) := by
  simp only [in1dRaw]
  set ar : List ℤ := a1 ++ a2 with har
  set order : List ℕ := argsort ar with horder
  set sar : List ℤ := order.map (fun q => ar.getD q 0) with hsar
  have harlen : ar.length = a1.length + a2.length := by rw [har]; simp
  have horderlen : order.length = ar.length := by rw [horder, argsort_length]
  have hsarlen : sar.length = ar.length := by
    rw [hsar, List.length_map, horderlen]
  have hiord : i < order.length := by omega
  have hidx : i < ((argsort order).take a1.length).length := by
    rw [List.length_take, argsort_length]
    omega
  rw [getD_map_comp _ _ i 0 false hidx,
    getD_take (argsort order) a1.length i 0 hi (by rw [argsort_length]; omega)]
  obtain ⟨p, hpdef⟩ : ∃ p, (argsort order).getD i 0 = p := ⟨_, rfl⟩
  rw [hpdef]
  have hordperm : order.Perm (List.range order.length) := by
    rw [horderlen, horder]
    exact argsort_perm ar
  have hpinv : order.getD p 0 = i := by
    have h := argsort_inverse order hordperm i hiord
    rwa [hpdef] at h
  have hpN : p < ar.length := by
    have h := argsort_getD_lt order i hiord
    rw [hpdef] at h
    omega
  have hsarval : ∀ q, q < order.length → sar.getD q 0 = ar.getD (order.getD q 0) 0 := by
    intro q hq
    rw [hsar]
    exact getD_map_comp order _ q 0 0 hq
  have hv1 : ∀ t, t < a1.length → ar.getD t 0 = a1.getD t 0 := by
    intro t ht
    rw [har]
    exact List.getD_append _ _ _ _ ht
  have hv2 : ∀ t, a1.length ≤ t → ar.getD t 0 = a2.getD (t - a1.length) 0 := by
    intro t ht
    rw [har]
    exact List.getD_append_right _ _ _ _ ht
  have h1inj : ∀ s t, s < a1.length → t < a1.length →
      a1.getD s 0 = a1.getD t 0 → s = t := by
    intro s t hs ht hval
    rw [List.getD_eq_getElem _ _ hs, List.getD_eq_getElem _ _ ht] at hval
    have h := (h1.get_inj_iff (i := ⟨s, hs⟩) (j := ⟨t, ht⟩)).mp (by simpa using hval)
    simpa using congrArg Fin.val h
  have hiff :
      ((List.zipWith (fun a b => decide (a = b)) sar.tail sar ++ [false]).getD
          p false = true)
        ↔ a1.getD i 0 ∈ a2 := by
    constructor
    · intro hflag
      by_cases hplast : p + 1 < sar.length
      · rw [in1d_flag_getD_mid sar p hplast, decide_eq_true_eq] at hflag
        have hp1ord : p + 1 < order.length := by omega
        obtain ⟨j, hjdef⟩ : ∃ j, order.getD (p + 1) 0 = j := ⟨_, rfl⟩
        have hjN : j < ar.length := by
          have h := argsort_getD_lt ar (p + 1) (by omega)
          rw [← horder, hjdef] at h
          exact h
        have hvij : ar.getD j 0 = ar.getD i 0 := by
          rw [hsarval (p + 1) hp1ord, hsarval p (by omega), hpinv, hjdef] at hflag
          exact hflag
        have hrel : argRel ar i j := by
          have h := argsort_rel_of_lt ar p (p + 1) (by omega) (by omega)
          rw [← horder, hpinv, hjdef] at h
          exact h
        have hne : i ≠ j := by
          intro he
          have h := argsort_getD_inj ar p (p + 1) hpN (by omega)
            (by rw [← horder, hpinv, hjdef]; exact he)
          omega
        have hilt : i < j := by
          rcases hrel with hlt | ⟨heq, hle⟩
          · exact absurd hvij (by rw [show (default : ℤ) = 0 from rfl] at hlt; omega)
          · omega
        by_cases hjm : j < a1.length
        · exfalso
          have heq : a1.getD i 0 = a1.getD j 0 := by
            rw [← hv1 i hi, ← hv1 j hjm, hvij]
          exact hne (h1inj i j hi hjm heq)
        · have hj2 : j - a1.length < a2.length := by omega
          have hval : a1.getD i 0 = a2.getD (j - a1.length) 0 := by
            rw [← hv1 i hi, ← hvij, hv2 j (by omega)]
          rw [hval]
          exact getD_mem _ _ _ hj2
      · have hpe : p + 1 = sar.length := by omega
        rw [in1d_flag_getD_last sar p hpe] at hflag
        exact absurd hflag (by simp)
    · intro hmem
      obtain ⟨⟨k, hk⟩, hkeq⟩ := List.mem_iff_get.mp hmem
      have hjN : a1.length + k < ar.length := by omega
      have hvj : ar.getD (a1.length + k) 0 = a1.getD i 0 := by
        rw [hv2 (a1.length + k) (by omega),
          show a1.length + k - a1.length = k by omega,
          List.getD_eq_getElem _ _ hk]
        simpa using hkeq
      obtain ⟨q, hqN, hqdef⟩ := argsort_exists_pos ar (a1.length + k) hjN
      rw [← horder] at hqdef
      have hvi : ar.getD i 0 = a1.getD i 0 := hv1 i hi
      have hpq : p < q := by
        rcases lt_trichotomy q p with hlt | heqq | hgt
        · exfalso
          have hrel := argsort_rel_of_lt ar q p hlt hpN
          rw [← horder, hqdef, hpinv] at hrel
          rcases hrel with hlt' | ⟨heq', hle'⟩
          · rw [show (default : ℤ) = 0 from rfl, hvj, hvi] at hlt'
            omega
          · omega
        · exfalso
          have h : a1.length + k = i := by
            rw [← hqdef, ← hpinv, heqq]
          omega
        · exact hgt
      have hplast : p + 1 < sar.length := by omega
      rw [in1d_flag_getD_mid sar p hplast, decide_eq_true_eq]
      have hle1 : ar.getD i 0 ≤ ar.getD (order.getD (p + 1) 0) 0 := by
        have hrel := argsort_rel_of_lt ar p (p + 1) (by omega) (by omega)
        rw [← horder, hpinv] at hrel
        have h := argRel_le ar hrel
        rwa [show (default : ℤ) = 0 from rfl] at h
      have heqval : ar.getD (order.getD (p + 1) 0) 0 = ar.getD i 0 := by
        rcases eq_or_lt_of_le (show p + 1 ≤ q by omega) with heq | hlt
        · rw [← heq] at hqdef
          rw [hqdef, hvj, hvi]
        · have hrel2 := argsort_rel_of_lt ar (p + 1) q hlt (by omega)
          rw [← horder, hqdef] at hrel2
          have h2 := argRel_le ar hrel2
          rw [show (default : ℤ) = 0 from rfl, hvj] at h2
          rw [hvi]
          exact le_antisymm h2 (by rw [← hvi]; exact hle1)
      rw [hsarval (p + 1) (by omega), hsarval p (by omega), hpinv, heqval]
  by_cases hmem : a1.getD i 0 ∈ a2
  · rw [hiff.mpr hmem]
    exact (decide_eq_true hmem).symm
  · have hfl : (List.zipWith (fun a b => decide (a = b)) sar.tail sar
        ++ [false]).getD p false = false := by
      cases hb : (List.zipWith (fun a b => decide (a = b)) sar.tail sar
          ++ [false]).getD p false
      · rfl
      · exact absurd (hiff.mp hb) hmem
    rw [hfl]
    exact (decide_eq_false hmem).symm

theorem flagFrom_cons (x y : ℤ) (ys : List ℤ) :
    flagFrom x (y :: ys) = decide (y ≠ x) :: flagFrom y ys := rfl

theorem boolMask_flagFrom (x : ℤ) (l : List ℤ) :
    boolMask l (flagFrom x l) = maskFrom x l := by
  induction l generalizing x with
  | nil => rfl
  | cons y ys ih =>
    rw [flagFrom_cons, maskFrom]
    by_cases h : y = x
    · rw [show decide (y ≠ x) = false by simp [h], if_neg (by simp [h])]
      exact ih y
    · rw [show decide (y ≠ x) = true by simp [h], if_pos (by simp [h])]
      rw [show boolMask (y :: ys) (true :: flagFrom y ys)
          = y :: boolMask ys (flagFrom y ys) from rfl, ih y]

theorem countT_cons (b : Bool) (m : List Bool) :
    countT (b :: m) = (if b then 1 else 0) + countT m := by
  cases b
  · simp [countT, List.count_cons]
  · simp [countT, List.count_cons]
    omega

theorem countT_take_le (m : List Bool) (n : ℕ) :
    countT (m.take n) ≤ countT m :=
  List.Sublist.count_le (List.take_sublist n m) true

theorem maskFrom_length (x : ℤ) (l : List ℤ) :
    (maskFrom x l).length = countT (flagFrom x l) := by
  induction l generalizing x with
  | nil => rfl
  | cons y ys ih =>
    rw [flagFrom_cons, countT_cons, maskFrom]
    by_cases h : y = x
    · rw [if_neg (by simp [h]), show decide (y ≠ x) = false by simp [h], ih y]
      simp
    · rw [if_pos (by simp [h]), show decide (y ≠ x) = true by simp [h]]
      simp [ih y]
      omega

theorem maskFrom_rank (l : List ℤ) (x : ℤ) (p : ℕ) (hp : p < l.length) :
    (x :: maskFrom x l).getD (countT ((flagFrom x l).take (p + 1))) 0
      = l.getD p 0 := by
  induction l generalizing x p with
  | nil => simp at hp
  | cons y ys ih =>
    rw [flagFrom_cons]
    cases p with
    | zero =>
      rw [show (decide (y ≠ x) :: flagFrom y ys).take 1 = [decide (y ≠ x)]
          from rfl]
      by_cases h : y = x
      · rw [show decide (y ≠ x) = false by simp [h]]
        rw [show countT [false] = 0 from rfl, List.getD_cons_zero,
          List.getD_cons_zero]
        exact h.symm
      · rw [show decide (y ≠ x) = true by simp [h]]
        rw [show countT [true] = 1 from rfl, maskFrom, if_pos (by simp [h])]
        rw [List.getD_cons_succ, List.getD_cons_zero, List.getD_cons_zero]
    | succ q =>
      rw [show (decide (y ≠ x) :: flagFrom y ys).take (q + 2)
          = decide (y ≠ x) :: (flagFrom y ys).take (q + 1) from rfl,
        countT_cons, List.getD_cons_succ]
      by_cases h : y = x
      · rw [show decide (y ≠ x) = false by simp [h], maskFrom,
          if_neg (by simp [h])]
        have hx : x :: maskFrom y ys = y :: maskFrom y ys := by rw [h]
        rw [show (if (false : Bool) then 1 else 0) + countT ((flagFrom y ys).take (q + 1))
            = countT ((flagFrom y ys).take (q + 1)) by simp, hx]
        exact ih y q (by simpa using hp)
      · rw [show decide (y ≠ x) = true by simp [h], maskFrom,
          if_pos (by simp [h])]
        rw [show (if (true : Bool) then 1 else 0) + countT ((flagFrom y ys).take (q + 1))
            = countT ((flagFrom y ys).take (q + 1)) + 1 by simp; omega]
        rw [List.getD_cons_succ]
        exact ih y q (by simpa using hp)

theorem maskFrom_rank_lt (l : List ℤ) (x : ℤ) (p : ℕ) :
    countT ((flagFrom x l).take (p + 1)) < (x :: maskFrom x l).length := by
  have h1 := countT_take_le (flagFrom x l) (p + 1)
  have h2 := maskFrom_length x l
  simp only [List.length_cons]
  omega

theorem maskFrom_subset (x : ℤ) (l : List ℤ) :
    ∀ z ∈ maskFrom x l, z ∈ l := by
  induction l generalizing x with
  | nil => intro z hz; exact absurd hz (by simp [maskFrom])
  | cons y ys ih =>
    intro z hz
    rw [maskFrom] at hz
    by_cases h : y = x
    · rw [if_neg (by simp [h])] at hz
      exact List.mem_cons_of_mem _ (ih y z hz)
    · rw [if_pos (by simp [h])] at hz
      rcases List.mem_cons.mp hz with rfl | hz'
      · exact List.mem_cons_self _ _
      · exact List.mem_cons_of_mem _ (ih y z hz')

theorem maskFrom_sorted (x : ℤ) (l : List ℤ)
    (h : List.Sorted (· ≤ ·) (x :: l)) :
    List.Sorted (· < ·) (x :: maskFrom x l) := by
  induction l generalizing x with
  | nil => simp [maskFrom]
  | cons y ys ih =>
    rw [List.sorted_cons] at h
    rw [maskFrom]
    by_cases hyx : y = x
    · rw [if_neg (by simp [hyx])]
      have hs := ih y h.2
      rwa [← hyx]
    · rw [if_pos (by simp [hyx])]
      have hxy : x < y := lt_of_le_of_ne (h.1 y (by simp)) (Ne.symm hyx)
      have hs := ih y h.2
      rw [List.sorted_cons]
      refine ⟨?_, hs⟩
      intro b hb
      rcases List.mem_cons.mp hb with rfl | hb'
      · exact hxy
      · exact hxy.trans ((List.sorted_cons.mp hs).1 b hb')

theorem scanl_getD_zero (l : List Bool) (a : ℕ) :
    (l.scanl (fun acc b => acc + if b then 1 else 0) a).getD 0 0 = a := by
  cases l <;> rfl

theorem scanl_getD_count (m : List Bool) (acc k : ℕ) (hk : k < m.length) :
    (m.scanl (fun acc b => acc + if b then 1 else 0) acc).getD (k + 1) 0
      = acc + countT (m.take (k + 1)) := by
  induction m generalizing acc k with
  | nil => simp at hk
  | cons b bs ih =>
    rw [List.scanl_cons, List.singleton_append, List.getD_cons_succ]
    cases k with
    | zero =>
      rw [scanl_getD_zero]
      rw [show (b :: bs).take 1 = [b] from rfl]
      cases b <;> simp [countT]
    | succ q =>
      rw [ih _ q (by simpa using hk)]
      rw [show (b :: bs).take (q + 2) = b :: bs.take (q + 1) from rfl,
        countT_cons]
      cases b
      · simp
      · simp
        omega

theorem getD_tail {α : Type} (l : List α) (p : ℕ) (d : α) :
    l.tail.getD p d = l.getD (p + 1) d := by
  cases l <;> simp [List.getD_cons_succ]

theorem length_scanl_flags (m : List Bool) (a : ℕ) :
    (m.scanl (fun acc b => acc + if b then 1 else 0) a).length
      = m.length + 1 := by
  rw [List.length_scanl]

theorem rankList_getD (m : List Bool) (p : ℕ) (hp : p < m.length) :
    (rankList m).getD p 0 = countT (m.take (p + 1)) - 1 := by
  rw [rankList, cumsumBool]
  rw [getD_map_comp _ _ p 0 0
    (by rw [List.length_tail, length_scanl_flags]; omega)]
  rw [getD_tail, scanl_getD_count m 0 p hp]
  simp

theorem flagOf_length (aux : List ℤ) : (flagOf aux).length = aux.length := by
  cases aux with
  | nil => rfl
  | cons x xs =>
    rw [show flagOf (x :: xs) = true :: flagFrom x xs from rfl]
    simp [flagFrom, List.length_zipWith]

theorem unique_mask_rank (aux : List ℤ) (p : ℕ) (hp : p < aux.length) :
    (boolMask aux (flagOf aux)).getD ((rankList (flagOf aux)).getD p 0) 0
      = aux.getD p 0 := by
  cases aux with
  | nil => simp at hp
  | cons x xs =>
    rw [show flagOf (x :: xs) = true :: flagFrom x xs from rfl,
      show boolMask (x :: xs) (true :: flagFrom x xs)
        = x :: boolMask xs (flagFrom x xs) from rfl,
      boolMask_flagFrom,
      rankList_getD _ p (by
        have h := flagOf_length (x :: xs)
        rw [show flagOf (x :: xs) = true :: flagFrom x xs from rfl] at h
        omega)]
    cases p with
    | zero =>
      rw [show (true :: flagFrom x xs).take 1 = [true] from rfl,
        show countT [true] - 1 = 0 from rfl, List.getD_cons_zero,
        List.getD_cons_zero]
    | succ q =>
      rw [show (true :: flagFrom x xs).take (q + 2)
          = true :: (flagFrom x xs).take (q + 1) from rfl,
        countT_cons,
        show (if (true : Bool) then 1 else 0)
            + countT ((flagFrom x xs).take (q + 1)) - 1
          = countT ((flagFrom x xs).take (q + 1)) by simp,
        List.getD_cons_succ]
      exact maskFrom_rank xs x q (by simpa using hp)

theorem unique_rank_lt (aux : List ℤ) (p : ℕ) (hp : p < aux.length) :
    (rankList (flagOf aux)).getD p 0 < (boolMask aux (flagOf aux)).length := by
  cases aux with
  | nil => simp at hp
  | cons x xs =>
    rw [show flagOf (x :: xs) = true :: flagFrom x xs from rfl,
      show boolMask (x :: xs) (true :: flagFrom x xs)
        = x :: boolMask xs (flagFrom x xs) from rfl,
      boolMask_flagFrom,
      rankList_getD _ p (by
        have h := flagOf_length (x :: xs)
        rw [show flagOf (x :: xs) = true :: flagFrom x xs from rfl] at h
        omega)]
    cases p with
    | zero => simp [countT]
    | succ q =>
      rw [show (true :: flagFrom x xs).take (q + 2)
          = true :: (flagFrom x xs).take (q + 1) from rfl,
        countT_cons,
        show (if (true : Bool) then 1 else 0)
            + countT ((flagFrom x xs).take (q + 1)) - 1
          = countT ((flagFrom x xs).take (q + 1)) by simp]
      exact maskFrom_rank_lt xs x q

theorem boolMask_flagOf_subset (aux : List ℤ) :
    ∀ z ∈ boolMask aux (flagOf aux), z ∈ aux := by
  cases aux with
  | nil => intro z hz; exact absurd hz (by simp [boolMask, flagOf])
  | cons x xs =>
    intro z hz
    rw [show flagOf (x :: xs) = true :: flagFrom x xs from rfl,
      show boolMask (x :: xs) (true :: flagFrom x xs)
        = x :: boolMask xs (flagFrom x xs) from rfl,
      boolMask_flagFrom] at hz
    rcases List.mem_cons.mp hz with rfl | hz'
    · exact List.mem_cons_self _ _
    · exact List.mem_cons_of_mem _ (maskFrom_subset x xs z hz')

theorem boolMask_flagOf_nodup (aux : List ℤ)
    (hs : List.Sorted (· ≤ ·) aux) :
    (boolMask aux (flagOf aux)).Nodup := by
  cases aux with
  | nil => simp [boolMask, flagOf]
  | cons x xs =>
    rw [show flagOf (x :: xs) = true :: flagFrom x xs from rfl,
      show boolMask (x :: xs) (true :: flagFrom x xs)
        = x :: boolMask xs (flagFrom x xs) from rfl,
      boolMask_flagFrom]
    exact (maskFrom_sorted x xs hs).nodup

theorem map_getD_range_int (l : List ℤ) :
    (List.range l.length).map (fun p => l.getD p 0) = l := by
  apply List.ext_getElem
  · simp
  · intro n h₁ h₂
    rw [List.getElem_map, List.getElem_range, List.getD_eq_getElem l 0 h₂]

theorem unique_aux_perm (ar : List ℤ) :
    ((argsort ar).map (fun p => ar.getD p 0)).Perm ar := by
  have h := (argsort_perm ar).map (fun p => ar.getD p 0)
  rwa [map_getD_range_int ar] at h

theorem unique_aux_sorted (ar : List ℤ) :
    List.Sorted (· ≤ ·) ((argsort ar).map (fun p => ar.getD p 0)) :=
  List.Pairwise.map _ (fun _ _ hab => argRel_le ar hab) (argsort_sorted ar)

theorem unique_fst_nodup (ar : List ℤ) : (_unique ar).1.Nodup := by
  simp only [_unique]
  exact boolMask_flagOf_nodup _ (unique_aux_sorted ar)

theorem unique_fst_mem (ar : List ℤ) (x : ℤ) : x ∈ (_unique ar).1 ↔ x ∈ ar := by
  simp only [_unique]
  constructor
  · intro hx
    exact (unique_aux_perm ar).mem_iff.mp (boolMask_flagOf_subset _ x hx)
  · intro hx
    have hx' : x ∈ (argsort ar).map (fun p => ar.getD p 0) :=
      (unique_aux_perm ar).mem_iff.mpr hx
    obtain ⟨⟨p, hp⟩, heq⟩ := List.mem_iff_get.mp hx'
    have hval := unique_mask_rank ((argsort ar).map (fun p => ar.getD p 0)) p hp
    have hlt := unique_rank_lt ((argsort ar).map (fun p => ar.getD p 0)) p hp
    have hgd : ((argsort ar).map (fun p => ar.getD p 0)).getD p 0 = x := by
      rw [List.getD_eq_getElem _ _ hp]
      simpa using heq
    rw [hgd] at hval
    rw [← hval]
    exact getD_mem _ _ _ hlt

theorem unique_snd_length (ar : List ℤ) : (_unique ar).2.length = ar.length := by
  simp only [_unique]
  rw [List.length_map, argsort_length, argsort_length]

theorem unique_inv_spec (ar : List ℤ) (i : ℕ) (hi : i < ar.length) :
    (_unique ar).1.getD ((_unique ar).2.getD i 0) 0 = ar.getD i 0
    ∧ (_unique ar).2.getD i 0 < (_unique ar).1.length := by
  simp only [_unique]
  have hplen : (argsort ar).length = ar.length := argsort_length ar
  have hii : i < (argsort (argsort ar)).length := by
    rw [argsort_length, hplen]
    exact hi
  rw [getD_map_comp _ _ i 0 0 hii]
  obtain ⟨q, hqdef⟩ : ∃ q, (argsort (argsort ar)).getD i 0 = q := ⟨_, rfl⟩
  rw [hqdef]
  have hqinv : (argsort ar).getD q 0 = i := by
    have hperm : (argsort ar).Perm (List.range (argsort ar).length) := by
      rw [hplen]
      exact argsort_perm ar
    have h := argsort_inverse (argsort ar) hperm i (by rwa [hplen])
    rwa [hqdef] at h
  have hqlt : q < ar.length := by
    have h := argsort_getD_lt (argsort ar) i (by rwa [hplen])
    rw [hqdef, hplen] at h
    exact h
  have hauxlen : ((argsort ar).map (fun p => ar.getD p 0)).length = ar.length := by
    rw [List.length_map, hplen]
  have hval := unique_mask_rank ((argsort ar).map (fun p => ar.getD p 0)) q
    (by rwa [hauxlen])
  have hlt := unique_rank_lt ((argsort ar).map (fun p => ar.getD p 0)) q
    (by rwa [hauxlen])
  have haux : ((argsort ar).map (fun p => ar.getD p 0)).getD q 0 = ar.getD i 0 := by
    rw [getD_map_comp _ _ q 0 0 (by rwa [hplen]), hqinv]
  rw [haux] at hval
  exact ⟨hval, hlt⟩

theorem in1dRaw_length (a1 a2 : List ℤ) : (in1dRaw a1 a2).length = a1.length := by
  simp only [in1dRaw]
  rw [List.length_map, List.length_take, argsort_length, argsort_length,
    List.length_append]
  omega

/-- C7: for every pair of integer arrays and either setting of
`assume_unique` (under the claimed distinctness precondition when it is
set), the membership fallback returns a boolean array of the length of
`ar1` whose `i`-th entry is raised exactly when `ar1[i]` occurs in `ar2`. -/
theorem in1d_membership (ar1 ar2 : List ℤ) (au : Bool)
    (hau : au = true → ar1.Nodup ∧ ar2.Nodup) :
    (_in1d ar1 ar2 au).length = ar1.length
    ∧ ∀ i, i < ar1.length →
        (_in1d ar1 ar2 au).getD i false = decide (ar1.getD i 0 ∈ ar2) := by
  cases au with
  | true =>
    obtain ⟨h1, h2⟩ := hau rfl
    rw [show _in1d ar1 ar2 true = in1dRaw ar1 ar2 from rfl]
    exact ⟨in1dRaw_length ar1 ar2, fun i hi => in1dRaw_flag ar1 ar2 h1 i hi⟩
  | false =>
    rw [show _in1d ar1 ar2 false
        = (_unique ar1).2.map
            (fun p => (in1dRaw (_unique ar1).1 (np_unique ar2)).getD p false)
      from rfl]
    constructor
    · rw [List.length_map, unique_snd_length]
    · intro i hi
      have hilen : i < (_unique ar1).2.length := by
        rw [unique_snd_length]
        exact hi
      rw [getD_map_comp _ _ i 0 false hilen]
      obtain ⟨hval, hlt⟩ := unique_inv_spec ar1 i hi
      rw [in1dRaw_flag (_unique ar1).1 (np_unique ar2) (unique_fst_nodup ar1)
        _ hlt]
      rw [hval]
      exact decide_eq_decide.mpr (by rw [np_unique]; exact unique_fst_mem ar2 _)

theorem in1d_membership_witness :
    (_in1d [3, 1, 3] [1, 2] false).length = ([3, 1, 3] : List ℤ).length
    ∧ ∀ i, i < ([3, 1, 3] : List ℤ).length →
        (_in1d [3, 1, 3] [1, 2] false).getD i false
          = decide (([3, 1, 3] : List ℤ).getD i 0 ∈ ([1, 2] : List ℤ)) :=
  in1d_membership [3, 1, 3] [1, 2] false (fun hcon => Bool.noConfusion hcon)
